import Mathlib

/-!
A shallow embedding of the core library module of the skills-taxonomy
repository (`tanova_skills_taxonomy.py`) together with proofs about its
lookup, scoring, gap-analysis and learning-path operations.

Modelling conventions:
- Python `dict` (which preserves insertion order and overwrites on key
  collision) is modelled as an association list `List (String × α)` with
  `dictInsert` (in-place overwrite, else append) and `dictGet?` (first match;
  keys built by `dictInsert` are unique, so first match is the match).
- Python `float` scores are modelled as rationals `ℚ`.  Rational literals are
  written with `mkRat`, and addition is performed by `qadd`, which is proved
  equal to ordinary rational addition (`qadd_eq_add`); this keeps every
  definition evaluable by kernel reduction.
- Python strings are modelled as `String`; `str.lower` is modelled by
  `strLower` (ASCII case folding over the character list, matching
  `Char.toLower`), `str.split()` by `pyWords`, the substring test `in` by
  `strIn`, and `str.replace('_', ' ')` by `replaceUnderscores`.
- `None` results of fallible operations become `Option.none`.
-/

/-- Lookup in a Python-dict model: first entry whose key matches. -/
def dictGet? {α : Type} (d : List (String × α)) (k : String) : Option α :=
  (d.find? (fun p => decide (p.1 = k))).map (fun p => p.2)

/-- Insertion in a Python-dict model: overwrite the entry in place when the
key is present, otherwise append the new entry (preserving insertion order,
as Python dicts do). -/
def dictInsert {α : Type} (d : List (String × α)) (k : String) (v : α) :
    List (String × α) :=
  if d.any (fun p => decide (p.1 = k)) then
    d.map (fun p => if p.1 = k then (k, v) else p)
  else
    d ++ [(k, v)]

/-- Keys of a Python-dict model, in insertion order. -/
def dictKeys {α : Type} (d : List (String × α)) : List String :=
  d.map (fun p => p.1)

/-- ASCII lowercasing of a string, character by character; models Python's
`str.lower()` on the ASCII inputs the taxonomy uses. -/
def strLower (s : String) : String := ⟨s.data.map Char.toLower⟩

/-- Rational addition computed through `mkRat`; models Python float `+` on
scores.  Proved equal to `HAdd.hAdd` in `qadd_eq_add`. -/
def qadd (a b : ℚ) : ℚ :=
  mkRat (a.num * (b.den : ℤ) + b.num * (a.den : ℤ)) (a.den * b.den)

/-- A proficiency level of a skill (`ProficiencyLevel` dataclass). -/
structure ProficiencyLevel where
  markers : List String
  typical_experience : String
  example_projects : Option (List String) := none
  deriving DecidableEq, Repr

/-- A skill record (`Skill` dataclass).  Python dict-valued fields become
association lists; `transferability` scores become rationals. -/
structure Skill where
  id : String
  canonical_name : String
  aliases : List String
  category : String
  subcategory : String
  tags : List String
  description : String
  parent_skills : List String
  child_skills : List String
  related_skills : List String
  transferability : List (String × ℚ)
  proficiency_levels : List (String × ProficiencyLevel)
  typical_roles : List String
  industry_demand : String
  prerequisites : List String
  deriving DecidableEq, Repr

/-- The loaded store: the `skills` dict (id → skill) and the `_alias_map`
dict (lowercased name → id), exactly the two dictionaries `SkillsTaxonomy`
builds in `_load_taxonomy`. -/
structure Store where
  skills : List (String × Skill)
  aliasMap : List (String × String)
  deriving DecidableEq, Repr

/-- The lowercased names under which `_load_taxonomy` indexes one skill:
its canonical name first, then each alias, in order. -/
def nameKeys (sk : Skill) : List String :=
  strLower sk.canonical_name :: sk.aliases.map strLower

/-- One iteration of `_load_taxonomy`'s loop body: store the skill under its
id, then map its canonical name and each alias (lowercased) to its id. -/
def storeStep (st : Store) (sk : Skill) : Store :=
  { skills := dictInsert st.skills sk.id sk
    aliasMap := (nameKeys sk).foldl (fun m k => dictInsert m k sk.id) st.aliasMap }

/-- Building the store from the (already parsed) list of skills, in the
order `_load_taxonomy` encounters them. -/
def loadStore (input : List Skill) : Store :=
  input.foldl storeStep { skills := [], aliasMap := [] }

/-- `normalize` (named `normalizeSkill` here because Mathlib already claims the name `normalize`): resolve a name through the alias map; the id must be truthy
(non-empty) and present in the skills dict, else `None`. -/
def normalizeSkill (st : Store) (skill_name : String) : Option String :=
  match dictGet? st.aliasMap (strLower skill_name) with
  | none => none
  | some skill_id =>
    if skill_id = "" then none
    else (dictGet? st.skills skill_id).map (fun sk => sk.canonical_name)

/-- `find_skill`: resolve a name through the alias map and fetch the record;
`skills.get` may itself miss (dangling id). -/
def findSkill (st : Store) (query : String) : Option Skill :=
  match dictGet? st.aliasMap (strLower query) with
  | none => none
  | some skill_id =>
    if skill_id = "" then none
    else dictGet? st.skills skill_id

/-- `get_parents`: parent ids resolved through the store, unresolvable ids
silently skipped, order preserved. -/
def getParents (st : Store) (skill_name : String) : List Skill :=
  match findSkill st skill_name with
  | none => []
  | some sk => sk.parent_skills.filterMap (fun pid => dictGet? st.skills pid)

/-- `get_children`: child ids resolved through the store, unresolvable ids
silently skipped, order preserved. -/
def getChildren (st : Store) (skill_name : String) : List Skill :=
  match findSkill st skill_name with
  | none => []
  | some sk => sk.child_skills.filterMap (fun cid => dictGet? st.skills cid)

/-- `get_related`: related ids resolved through the store, unresolvable ids
silently skipped, order preserved. -/
def getRelated (st : Store) (skill_name : String) : List Skill :=
  match findSkill st skill_name with
  | none => []
  | some sk => sk.related_skills.filterMap (fun rid => dictGet? st.skills rid)

/-- `are_related`: false when either name fails to resolve; else true when
either skill lists the other in `related_skills` or both share a
subcategory. -/
def areRelated (st : Store) (skill1 skill2 : String) : Bool :=
  match findSkill st skill1, findSkill st skill2 with
  | some s1, some s2 =>
    decide (s2.id ∈ s1.related_skills) || decide (s1.id ∈ s2.related_skills) ||
      decide (s1.subcategory = s2.subcategory)
  | _, _ => false

/-- `get_transferability`: 0 when either side fails to resolve; else the
authored forward value, else the authored reverse value, else 0.5 on equal
subcategory, else 0.3 on equal category, else 0. -/
def getTransferability (st : Store) (from_skill to_skill : String) : ℚ :=
  match findSkill st from_skill, findSkill st to_skill with
  | some skill, some target =>
    match dictGet? skill.transferability target.id with
    | some v => v
    | none =>
      match dictGet? target.transferability skill.id with
      | some v => v
      | none =>
        if skill.subcategory = target.subcategory then mkRat 1 2
        else if skill.category = target.category then mkRat 3 10
        else 0
  | _, _ => 0

/-- Python truthiness of `a or b` for an optional string `a`: `None` and the
empty string are falsy, so they fall through to `b`. -/
def pyOrStr (a : Option String) (b : String) : String :=
  match a with
  | none => b
  | some s => if s = "" then b else s

/-- The key under which `analyze_gaps` and `generate_learning_path` file a
free-text skill name: `self.normalize(skill) or skill`. -/
def normOr (st : Store) (s : String) : String := pyOrStr (normalizeSkill st s) s

/-- The dict comprehension `{(normalize(s) or s): s for s in l}`. -/
def keyDict (st : Store) (l : List String) : List (String × String) :=
  l.foldl (fun d s => dictInsert d (normOr st s) s) []

/-- Normalized keys of the `required` list of `analyze_gaps`. -/
def reqKeysOf (st : Store) (required : List String) : List String :=
  dictKeys (keyDict st required)

/-- Normalized keys of the `candidate` list of `analyze_gaps`. -/
def candKeysOf (st : Store) (candidate : List String) : List String :=
  dictKeys (keyDict st candidate)

/-- The `matches` set of `analyze_gaps` (required keys also held by the
candidate); a Python set, modelled in required-key order. -/
def matchesOf (st : Store) (required candidate : List String) : List String :=
  (reqKeysOf st required).filter (fun k => decide (k ∈ candKeysOf st candidate))

/-- The `missing` set of `analyze_gaps` (required keys the candidate lacks);
a Python set, modelled in required-key order. -/
def missingOf (st : Store) (required candidate : List String) : List String :=
  (reqKeysOf st required).filter (fun k => !decide (k ∈ candKeysOf st candidate))

/-- The inner loop of `analyze_gaps`: best transferability score over the
candidate keys towards one missing skill, together with the best match
(strict improvement only, so the first maximum wins). -/
def bestTransfer (st : Store) (candKeys : List String) (req : String) :
    ℚ × Option String :=
  candKeys.foldl
    (fun acc c =>
      let t := getTransferability st c req
      if acc.1 < t then (t, some c) else acc)
    (0, none)

/-- One entry of the internal `transferable` list of `analyze_gaps`. -/
structure TransferEntry where
  required : String
  has : Option String
  transferability : ℚ
  deriving DecidableEq, Repr

/-- The body of the `for req_skill in missing` loop of `analyze_gaps`:
append to the internal `transferable` list when the best score is at least
0.70, else append to `critical_gaps`. -/
def gapStep (st : Store) (candKeys : List String)
    (acc : List TransferEntry × List String) (req : String) :
    List TransferEntry × List String :=
  let bt := bestTransfer st candKeys req
  if mkRat 7 10 ≤ bt.1 then
    (acc.1 ++ [{ required := req, has := bt.2, transferability := bt.1 }], acc.2)
  else
    (acc.1, acc.2 ++ [req])

/-- The classification loop of `analyze_gaps` over the missing skills. -/
def gapClassify (st : Store) (candKeys missing : List String) :
    List TransferEntry × List String :=
  missing.foldl (gapStep st candKeys) ([], [])

/-- The dictionary returned by `analyze_gaps` (its `matches` entry is named
`matchesList` here because `matches` is reserved syntax in Lean). -/
structure GapResult where
  matchesList : List String
  critical_gaps : List String
  minor_gaps : List String
  transferable : List TransferEntry
  deriving DecidableEq, Repr

/-- `analyze_gaps`: normalize both lists, intersect for matches, classify the
missing skills by best transferability, and derive `minor_gaps` and the
returned `transferable` by re-filtering the internal transferable list. -/
def analyzeGaps (st : Store) (required candidate : List String) : GapResult :=
  let candKeys := candKeysOf st candidate
  let tc := gapClassify st candKeys (missingOf st required candidate)
  { matchesList := matchesOf st required candidate
    critical_gaps := tc.2
    minor_gaps :=
      (tc.1.filter (fun t =>
        decide (mkRat 1 2 ≤ t.transferability ∧ t.transferability < mkRat 7 10))).map
        (fun t => t.required)
    transferable := tc.1.filter (fun t => decide (mkRat 7 10 ≤ t.transferability)) }

/-- Python `str.split()` over a character list: split on whitespace runs,
dropping empty segments.  The first argument accumulates the current word in
reverse. -/
def splitWSAux : List Char → List Char → List String
  | [], cur => if cur.isEmpty then [] else [String.mk cur.reverse]
  | c :: rest, cur =>
    if c.isWhitespace then
      if cur.isEmpty then splitWSAux rest []
      else String.mk cur.reverse :: splitWSAux rest []
    else splitWSAux rest (c :: cur)

/-- Python `marker.split()`: whitespace-separated words of a string. -/
def pyWords (s : String) : List String := splitWSAux s.data []

/-- Contiguous-sublist test on character lists (Python's `in` on strings). -/
def isSubstr (needle : List Char) : List Char → Bool
  | [] => needle.isEmpty
  | c :: rest => needle.isPrefixOf (c :: rest) || isSubstr needle rest

/-- Python `needle in hay` for strings. -/
def strIn (needle hay : String) : Bool := isSubstr needle.data hay.data

/-- The per-level score of `assess_proficiency`: the number of markers any
of whose whitespace-separated words occurs (lowercased) as a substring of
the lowercased context. -/
def levelScore (ctxLower : String) (prof : ProficiencyLevel) : Nat :=
  (prof.markers.filter (fun marker =>
    (pyWords marker).any (fun word => strIn (strLower word) ctxLower))).length

/-- The (level, score) pair `assess_proficiency` builds for one proficiency
level of the resolved skill. -/
def scoreOf (context : String) (q : String × ProficiencyLevel) : String × Nat :=
  (q.1, levelScore (strLower context) q.2)

/-- One step of Python's `max(items, key=lambda x: x[1])`: keep the incumbent
unless the newcomer is strictly larger, so the first maximum wins. -/
def argmaxStep (best y : String × Nat) : String × Nat :=
  if best.2 < y.2 then y else best

/-- Python's `max(items, key=lambda x: x[1])` on an association list; `none`
on the empty list (where Python would raise `ValueError`). -/
def firstArgmax : List (String × Nat) → Option (String × Nat)
  | [] => none
  | x :: xs => some (xs.foldl argmaxStep x)

/-- `assess_proficiency`: `None` for an unresolvable skill; else score each
proficiency level against the context and return the first level attaining
the maximum score, or `None` when the maximum is 0.  (On a skill with no
proficiency levels Python's `max` raises `ValueError`; that case is outside
every claim and is modelled as `none`.) -/
def assessProficiency (st : Store) (skill_name context : String) : Option String :=
  match findSkill st skill_name with
  | none => none
  | some sk =>
    match firstArgmax (sk.proficiency_levels.map
        (fun p => (p.1, levelScore (strLower context) p.2))) with
    | none => none
    | some best => if 0 < best.2 then some best.1 else none

/-- One recommendation produced by `generate_learning_path`. -/
structure Recommendation where
  skill : String
  priority : String
  priority_score : ℚ
  prerequisites_met : Bool
  why : String
  deriving DecidableEq, Repr

/-- The `prereqs_met` computation of `generate_learning_path`:
`all(self.normalize(prereq) in current_normalized for prereq in
skill.prerequisites)`.  The membership test compares an optional canonical
name against a set of strings, so an unresolvable prerequisite (`None`) is
never a member. -/
def prereqsMet (st : Store) (sk : Skill) (curNorm : List String) : Bool :=
  sk.prerequisites.all (fun p =>
    match normalizeSkill st p with
    | some c => decide (c ∈ curNorm)
    | none => false)

/-- The demand contribution to `priority_score`. -/
def demandScore (demand : String) : ℚ :=
  if demand = "very_high" then 3
  else if demand = "high" then 2
  else if demand = "medium" then 1
  else 0

/-- The transferability contribution to `priority_score`: one `transfer`
term per raw entry of `current_skills`, accumulated left to right. -/
def transferSum (st : Store) (current : List String) (target : String)
    (init : ℚ) : ℚ :=
  current.foldl (fun s c => qadd s (getTransferability st c target)) init

/-- Python `', '.join(l)`. -/
def joinComma : List String → String
  | [] => ""
  | [x] => x
  | x :: rest => x ++ ", " ++ joinComma rest

/-- Python `s.replace('_', ' ')`: with a one-character pattern this is a
character-wise substitution. -/
def replaceUnderscores (s : String) : String :=
  ⟨s.data.map (fun c => if c = '_' then ' ' else c)⟩

/-- `_generate_learning_reason`: prefer current skills related to the
candidate skill (display at most two), else cite high demand, else the first
parent id, else a generic fallback. -/
def generateLearningReason (st : Store) (sk : Skill) (current : List String) :
    String :=
  let relatedCurrent := current.filter (fun c => areRelated st c sk.canonical_name)
  if relatedCurrent.isEmpty then
    if sk.industry_demand = "very_high" ∨ sk.industry_demand = "high" then
      "High market demand (" ++ replaceUnderscores sk.industry_demand ++ ")"
    else
      match sk.parent_skills with
      | p :: _ => "Builds on " ++ p
      | [] => "Essential for role"
  else
    "Extends your knowledge of " ++ joinComma (relatedCurrent.take 2)

/-- The recommendation record `generate_learning_path` appends for one
role skill that is not already known. -/
def mkRecommendation (st : Store) (current curNorm : List String) (sk : Skill) :
    Recommendation :=
  let pm := prereqsMet st sk curNorm
  let base := qadd (demandScore sk.industry_demand) (if pm then 2 else 0)
  let score := transferSum st current sk.canonical_name base
  { skill := sk.canonical_name
    priority :=
      if (4 : ℚ) ≤ score then "high"
      else if (2 : ℚ) ≤ score then "medium"
      else "low"
    priority_score := score
    prerequisites_met := pm
    why := generateLearningReason st sk current }

/-- The recommendation list of `generate_learning_path` before sorting:
skills of the store (in store order) whose `typical_roles` contain the
target role exactly and whose canonical name is not already current. -/
def collectRecs (st : Store) (current : List String) (targetRole : String) :
    List Recommendation :=
  let curNorm := current.map (fun s => normOr st s)
  (((st.skills.map (fun p => p.2)).filter
      (fun sk => decide (targetRole ∈ sk.typical_roles))).filter
    (fun sk => !decide (sk.canonical_name ∈ curNorm))).map
    (mkRecommendation st current curNorm)

/-- Stable insertion for a descending sort on `priority_score`: the new
element goes before the first incumbent with a score not larger than its
own, hence after every earlier element with an equal score. -/
def insertDescBy (key : Recommendation → ℚ) (r : Recommendation) :
    List Recommendation → List Recommendation
  | [] => [r]
  | x :: xs =>
    if key x ≤ key r then r :: x :: xs else x :: insertDescBy key r xs

/-- A stable descending sort on `priority_score`, modelling Python's stable
`list.sort(key=..., reverse=True)`. -/
def sortDescBy (key : Recommendation → ℚ) (l : List Recommendation) :
    List Recommendation :=
  l.foldr (insertDescBy key) []

/-- `generate_learning_path`: collect, score and stably sort descending by
`priority_score`. -/
def generateLearningPath (st : Store) (current : List String)
    (targetRole : String) : List Recommendation :=
  sortDescBy (fun r => r.priority_score) (collectRecs st current targetRole)

/-- Example skill: member of subcategory `sub`, used as a required skill in
gap-analysis examples. -/
def alphaSkill : Skill :=
  { id := "ga", canonical_name := "Alpha", aliases := ["al"]
    category := "tech", subcategory := "sub", tags := []
    description := "first example skill", parent_skills := []
    child_skills := [], related_skills := [], transferability := []
    proficiency_levels := [], typical_roles := []
    industry_demand := "high", prerequisites := [] }

/-- Example skill: same subcategory as `alphaSkill`, no authored
transferability, so transfer between the two falls back to 0.50. -/
def betaSkill : Skill :=
  { id := "gb", canonical_name := "Beta", aliases := []
    category := "tech", subcategory := "sub", tags := []
    description := "second example skill", parent_skills := []
    child_skills := [], related_skills := [], transferability := []
    proficiency_levels := [], typical_roles := []
    industry_demand := "medium", prerequisites := [] }

/-- Example skill: authored transferability of exactly 0.70 towards
`alphaSkill`. -/
def gammaSkill : Skill :=
  { id := "gc", canonical_name := "Gamma", aliases := []
    category := "tech", subcategory := "webdev", tags := []
    description := "third example skill", parent_skills := []
    child_skills := [], related_skills := []
    transferability := [("ga", mkRat 7 10)]
    proficiency_levels := [], typical_roles := []
    industry_demand := "medium", prerequisites := [] }

/-- Example skill with proficiency levels, for the proficiency assessor. -/
def reactSkill : Skill :=
  { id := "re", canonical_name := "React", aliases := ["react.js"]
    category := "tech", subcategory := "frontend", tags := []
    description := "fourth example skill", parent_skills := []
    child_skills := [], related_skills := [], transferability := []
    proficiency_levels :=
      [("beginner",
        { markers := ["simple tutorial", "basic components"]
          typical_experience := "0-1 years" }),
       ("intermediate",
        { markers := ["state management"]
          typical_experience := "1-3 years" })]
    typical_roles := [], industry_demand := "very_high", prerequisites := [] }

/-- Example skill attached to the role `Backend Developer`, for the learning
path planner. -/
def djangoSkill : Skill :=
  { id := "dj", canonical_name := "Django", aliases := []
    category := "tech", subcategory := "backend", tags := []
    description := "fifth example skill", parent_skills := []
    child_skills := [], related_skills := [], transferability := []
    proficiency_levels := [], typical_roles := ["Backend Developer"]
    industry_demand := "high", prerequisites := [] }

/-- The example input list of skills. -/
def exSkills : List Skill :=
  [alphaSkill, betaSkill, gammaSkill, reactSkill, djangoSkill]

/-- The example store used by the concrete witnesses. -/
def exStore : Store := loadStore exSkills

theorem find?_replace_self {α : Type} (d : List (String × α)) (k : String) (v : α)
    (h : d.any (fun p => decide (p.1 = k)) = true) :
    (d.map (fun p => if p.1 = k then (k, v) else p)).find?
      (fun p => decide (p.1 = k)) = some (k, v) := by
  induction d with
  | nil => simp at h
  | cons p tl ih =>
    rw [List.map_cons]
    by_cases hp : p.1 = k
    · rw [if_pos hp]
      exact List.find?_cons_of_pos _ (by simp)
    · have htl : tl.any (fun p => decide (p.1 = k)) = true := by
        simpa [List.any_cons, hp] using h
      rw [if_neg hp, List.find?_cons_of_neg _ (by simpa using hp), ih htl]

theorem find?_replace_ne {α : Type} (d : List (String × α)) (k : String) (v : α)
    (k' : String) (hne : k' ≠ k) :
    (d.map (fun p => if p.1 = k then (k, v) else p)).find?
      (fun p => decide (p.1 = k')) = d.find? (fun p => decide (p.1 = k')) := by
  induction d with
  | nil => rfl
  | cons p tl ih =>
    rw [List.map_cons]
    by_cases hp : p.1 = k
    · have h1 : ¬ ((k, v).1 = k') := fun e => hne e.symm
      have h2 : ¬ (p.1 = k') := by rw [hp]; exact fun e => hne e.symm
      rw [if_pos hp, List.find?_cons_of_neg _ (by simpa using h1),
        List.find?_cons_of_neg _ (by simpa using h2), ih]
    · by_cases hp' : p.1 = k'
      · rw [if_neg hp, List.find?_cons_of_pos _ (by simpa using hp'),
          List.find?_cons_of_pos _ (by simpa using hp')]
      · rw [if_neg hp, List.find?_cons_of_neg _ (by simpa using hp'),
          List.find?_cons_of_neg _ (by simpa using hp'), ih]

theorem dictGet?_insert_self {α : Type} (d : List (String × α)) (k : String) (v : α) :
    dictGet? (dictInsert d k v) k = some v := by
  unfold dictInsert
  by_cases h : d.any (fun p => decide (p.1 = k)) = true
  · simp only [h, if_true, dictGet?, find?_replace_self d k v h, Option.map_some']
  · have h' := Bool.eq_false_iff.mpr h
    simp only [h', Bool.false_eq_true, if_false, dictGet?, List.find?_append]
    have hd : d.find? (fun p => decide (p.1 = k)) = none :=
      List.find?_eq_none.mpr (by
        intro x hx
        simp only [decide_eq_true_eq]
        intro e
        exact h (List.any_eq_true.mpr ⟨x, hx, by simp [e]⟩))
    rw [hd]
    simp [List.find?]

theorem dictGet?_insert_ne {α : Type} (d : List (String × α)) (k : String) (v : α)
    (k' : String) (hne : k' ≠ k) :
    dictGet? (dictInsert d k v) k' = dictGet? d k' := by
  unfold dictInsert
  by_cases h : d.any (fun p => decide (p.1 = k)) = true
  · simp only [h, if_true, dictGet?, find?_replace_ne d k v k' hne]
  · have h' := Bool.eq_false_iff.mpr h
    simp only [h', Bool.false_eq_true, if_false, dictGet?, List.find?_append]
    have hk : ([(k, v)].find? (fun p => decide (p.1 = k'))) = none := by
      have hkk : ¬ (k = k') := fun e => hne e.symm
      simp [List.find?, hkk]
    rw [hk]
    cases d.find? (fun p => decide (p.1 = k')) <;> rfl

theorem any_key_iff_mem {α : Type} (d : List (String × α)) (k : String) :
    d.any (fun p => decide (p.1 = k)) = true ↔ k ∈ dictKeys d := by
  constructor
  · intro h
    rcases List.any_eq_true.mp h with ⟨p, hp, hd⟩
    exact List.mem_map.mpr ⟨p, hp, of_decide_eq_true hd⟩
  · intro h
    rcases List.mem_map.mp h with ⟨p, hp, e⟩
    exact List.any_eq_true.mpr ⟨p, hp, by simp [e]⟩

theorem dictKeys_insert {α : Type} (d : List (String × α)) (k : String) (v : α) :
    dictKeys (dictInsert d k v) =
      if k ∈ dictKeys d then dictKeys d else dictKeys d ++ [k] := by
  unfold dictInsert
  by_cases h : k ∈ dictKeys d
  · rw [if_pos ((any_key_iff_mem d k).mpr h), if_pos h]
    unfold dictKeys
    rw [List.map_map]
    refine List.map_congr_left ?_
    intro p _
    by_cases hp : p.1 = k
    · simp [hp]
    · simp [hp]
  · have h' : d.any (fun p => decide (p.1 = k)) = false :=
      Bool.eq_false_iff.mpr (fun e => h ((any_key_iff_mem d k).mp e))
    rw [h', if_neg h]
    simp [dictKeys]

theorem keyDict_keys_nodup_aux (st : Store) (l : List String)
    (d : List (String × String)) (hd : (dictKeys d).Nodup) :
    (dictKeys (l.foldl (fun d s => dictInsert d (normOr st s) s) d)).Nodup := by
  induction l generalizing d with
  | nil => exact hd
  | cons s tl ih =>
    rw [List.foldl_cons]
    refine ih _ ?_
    rw [dictKeys_insert]
    by_cases h : normOr st s ∈ dictKeys d
    · simpa [h] using hd
    · simp [h, List.nodup_append, hd]

theorem keyDict_keys_nodup (st : Store) (l : List String) :
    (dictKeys (keyDict st l)).Nodup :=
  keyDict_keys_nodup_aux st l [] List.nodup_nil

theorem dictGet?_insertList (ks : List String) (v : String)
    (am : List (String × String)) (x : String) :
    dictGet? (ks.foldl (fun m k => dictInsert m k v) am) x =
      if x ∈ ks then some v else dictGet? am x := by
  induction ks generalizing am with
  | nil => simp
  | cons k tl ih =>
    rw [List.foldl_cons, ih]
    by_cases hx : x ∈ tl
    · simp [hx]
    · by_cases hk : x = k
      · subst hk
        simp [hx, dictGet?_insert_self]
      · simp [hx, hk, dictGet?_insert_ne _ _ _ _ hk]

theorem aliasMap_foldl_untouched (l : List Skill) (st : Store) (x : String)
    (h : ∀ sk ∈ l, x ∉ nameKeys sk) :
    dictGet? (l.foldl storeStep st).aliasMap x = dictGet? st.aliasMap x := by
  induction l generalizing st with
  | nil => rfl
  | cons a tl ih =>
    rw [List.foldl_cons, ih _ (fun sk hsk => h sk (by simp [hsk]))]
    show dictGet? ((nameKeys a).foldl (fun m k => dictInsert m k a.id) st.aliasMap) x = _
    rw [dictGet?_insertList]
    simp [h a (by simp)]

theorem skills_foldl_untouched (l : List Skill) (st : Store) (x : String)
    (h : x ∉ l.map Skill.id) :
    dictGet? (l.foldl storeStep st).skills x = dictGet? st.skills x := by
  induction l generalizing st with
  | nil => rfl
  | cons a tl ih =>
    have hx : x ≠ a.id := by
      intro e
      exact h (by simp [e])
    rw [List.foldl_cons, ih _ (fun e => h (by simp at e ⊢; exact Or.inr e))]
    show dictGet? (dictInsert st.skills a.id a) x = _
    exact dictGet?_insert_ne _ _ _ _ hx

theorem aliasMap_loadStore_aux (input : List Skill) (st : Store)
    (hdisj : input.Pairwise (fun s t => ∀ x ∈ nameKeys s, x ∉ nameKeys t))
    (sk : Skill) (hsk : sk ∈ input) (x : String) (hx : x ∈ nameKeys sk) :
    dictGet? (input.foldl storeStep st).aliasMap x = some sk.id := by
  induction input generalizing st with
  | nil => cases hsk
  | cons a tl ih =>
    rw [List.foldl_cons]
    rcases List.mem_cons.mp hsk with rfl | htl
    · have hnot : ∀ t ∈ tl, x ∉ nameKeys t :=
        fun t ht => (List.pairwise_cons.mp hdisj).1 t ht x hx
      rw [aliasMap_foldl_untouched tl _ x hnot]
      show dictGet? ((nameKeys sk).foldl (fun m k => dictInsert m k sk.id) st.aliasMap) x = _
      rw [dictGet?_insertList]
      simp [hx]
    · exact ih _ (List.pairwise_cons.mp hdisj).2 htl

theorem skills_loadStore_aux (input : List Skill) (st : Store)
    (hids : (input.map Skill.id).Nodup) (sk : Skill) (hsk : sk ∈ input) :
    dictGet? (input.foldl storeStep st).skills sk.id = some sk := by
  induction input generalizing st with
  | nil => cases hsk
  | cons a tl ih =>
    rw [List.foldl_cons]
    rcases List.mem_cons.mp hsk with rfl | htl
    · have hids' : (sk.id :: tl.map Skill.id).Nodup := by simpa using hids
      have hnot : sk.id ∉ tl.map Skill.id := (List.nodup_cons.mp hids').1
      rw [skills_foldl_untouched tl _ sk.id hnot]
      show dictGet? (dictInsert st.skills sk.id sk) sk.id = _
      exact dictGet?_insert_self _ _ _
    · have hids' : (a.id :: tl.map Skill.id).Nodup := by simpa using hids
      exact ih _ ((List.nodup_cons.mp hids').2) htl

theorem qadd_eq_add (a b : ℚ) : qadd a b = a + b := by
  have ha : ((a.den : ℚ)) ≠ 0 := Nat.cast_ne_zero.mpr a.den_nz
  have hb : ((b.den : ℚ)) ≠ 0 := Nat.cast_ne_zero.mpr b.den_nz
  rw [qadd, Rat.mkRat_eq_div]
  conv_rhs => rw [← Rat.num_div_den a, ← Rat.num_div_den b]
  rw [div_add_div _ _ ha hb]
  push_cast
  ring_nf

theorem normalizeSkill_eq_none_of_findSkill_none (st : Store) (q : String)
    (h : findSkill st q = none) : normalizeSkill st q = none := by
  unfold findSkill at h
  unfold normalizeSkill
  cases hd : dictGet? st.aliasMap (strLower q) with
  | none => rfl
  | some skill_id =>
    rw [hd] at h
    by_cases he : skill_id = ""
    · simp [he]
    · simp only [he, if_false, if_neg he] at h ⊢
      rw [h]
      rfl

theorem dictGet?_mem {α : Type} (d : List (String × α)) (k : String) (v : α)
    (h : dictGet? d k = some v) : (k, v) ∈ d := by
  unfold dictGet? at h
  cases hf : d.find? (fun p => decide (p.1 = k)) with
  | none => rw [hf] at h; cases h
  | some p =>
    rw [hf] at h
    have h1 : p.1 = k := by
      have hp1 := List.find?_some hf
      simpa using hp1
    have h2 : p.2 = v := by simpa using h
    have hp : p = (k, v) := by
      cases p
      simp only at h1 h2
      rw [h1, h2]
    exact hp ▸ List.mem_of_find?_eq_some hf

theorem findSkill_mem_values (st : Store) (q : String) (sk : Skill)
    (h : findSkill st q = some sk) : ∃ p ∈ st.skills, p.2 = sk := by
  unfold findSkill at h
  cases hd : dictGet? st.aliasMap (strLower q) with
  | none => rw [hd] at h; cases h
  | some skill_id =>
    rw [hd] at h
    have h' : (if skill_id = "" then none else dictGet? st.skills skill_id) = some sk := h
    by_cases he : skill_id = ""
    · simp [he] at h'
    · rw [if_neg he] at h'
      exact ⟨(skill_id, sk), dictGet?_mem _ _ _ h', rfl⟩

/-- C3: under the store invariant — ids pairwise distinct and non-empty,
canonical names and aliases case-insensitively unique across all skills —
`normalize` maps each stored skill's canonical name to itself and each of
its aliases to its canonical name. -/
theorem C3_normalize_roundtrip (input : List Skill)
    (hids : (input.map Skill.id).Nodup)
    (hne : ∀ sk ∈ input, sk.id ≠ "")
    (hdisj : input.Pairwise (fun s t => ∀ x ∈ nameKeys s, x ∉ nameKeys t))
    (sk : Skill) (hsk : sk ∈ input) :
    normalizeSkill (loadStore input) sk.canonical_name = some sk.canonical_name ∧
      ∀ a ∈ sk.aliases, normalizeSkill (loadStore input) a = some sk.canonical_name := by
  have hmain : ∀ x ∈ nameKeys sk, dictGet? (loadStore input).aliasMap x = some sk.id :=
    fun x hx => aliasMap_loadStore_aux input _ hdisj sk hsk x hx
  have hskills : dictGet? (loadStore input).skills sk.id = some sk :=
    skills_loadStore_aux input _ hids sk hsk
  constructor
  · unfold normalizeSkill
    rw [hmain (strLower sk.canonical_name) (by simp [nameKeys])]
    show (if sk.id = "" then none
        else (dictGet? (loadStore input).skills sk.id).map
          (fun sk => sk.canonical_name)) = some sk.canonical_name
    rw [if_neg (hne sk hsk), hskills]
    rfl
  · intro a ha
    unfold normalizeSkill
    rw [hmain (strLower a) (by simp [nameKeys]; exact Or.inr ⟨a, ha, rfl⟩)]
    show (if sk.id = "" then none
        else (dictGet? (loadStore input).skills sk.id).map
          (fun sk => sk.canonical_name)) = some sk.canonical_name
    rw [if_neg (hne sk hsk), hskills]
    rfl

/-- C3 witness: the round trip evaluated on the example store at `reactSkill`
(canonical name `React`, alias `react.js`). -/
theorem C3_witness :
    normalizeSkill (loadStore exSkills) reactSkill.canonical_name =
        some reactSkill.canonical_name ∧
      ∀ a ∈ reactSkill.aliases,
        normalizeSkill (loadStore exSkills) a = some reactSkill.canonical_name :=
  C3_normalize_roundtrip exSkills (by decide) (by decide) (by decide)
    reactSkill (by decide)

/-- C2: `get_transferability` returns 0 when either side is unresolvable;
otherwise the first applicable rule wins — authored forward value exactly,
else authored reverse value, else 0.5 on equal subcategory, else 0.3 on
equal category, else 0 — and, when every authored value lies in [0,1], the
result lies in [0,1]. -/
theorem C2_transferability_rules (st : Store) (a b : String)
    (hAuth : ∀ p ∈ st.skills, ∀ q ∈ p.2.transferability, 0 ≤ q.2 ∧ q.2 ≤ 1) :
    ((findSkill st a = none ∨ findSkill st b = none) →
        getTransferability st a b = 0) ∧
    (∀ s t, findSkill st a = some s → findSkill st b = some t →
      (∀ v, dictGet? s.transferability t.id = some v →
        getTransferability st a b = v) ∧
      (dictGet? s.transferability t.id = none →
        ∀ v, dictGet? t.transferability s.id = some v →
          getTransferability st a b = v) ∧
      (dictGet? s.transferability t.id = none →
        dictGet? t.transferability s.id = none →
          getTransferability st a b =
            (if s.subcategory = t.subcategory then mkRat 1 2
             else if s.category = t.category then mkRat 3 10 else 0))) ∧
    (0 ≤ getTransferability st a b ∧ getTransferability st a b ≤ 1) := by
  refine ⟨?_, ?_, ?_⟩
  · rintro (h | h)
    · cases hb : findSkill st b <;> simp [getTransferability, h, hb]
    · cases ha : findSkill st a <;> simp [getTransferability, h, ha]
  · intro s t hs ht
    refine ⟨?_, ?_, ?_⟩
    · intro v hv
      simp [getTransferability, hs, ht, hv]
    · intro h0 v hv
      simp [getTransferability, hs, ht, h0, hv]
    · intro h0 h1
      simp [getTransferability, hs, ht, h0, h1]
  · cases ha : findSkill st a with
    | none =>
      cases hb : findSkill st b <;> simp [getTransferability, ha, hb]
    | some s =>
      cases hb : findSkill st b with
      | none => simp [getTransferability, ha, hb]
      | some t =>
        rcases findSkill_mem_values st a s ha with ⟨p, hp, hps⟩
        rcases findSkill_mem_values st b t hb with ⟨p', hp', hpt⟩
        cases h0 : dictGet? s.transferability t.id with
        | some v =>
          have hvmem : (t.id, v) ∈ p.2.transferability := by
            rw [hps]; exact dictGet?_mem _ _ _ h0
          have := hAuth p hp _ hvmem
          simpa [getTransferability, ha, hb, h0] using this
        | none =>
          cases h1 : dictGet? t.transferability s.id with
          | some v =>
            have hvmem : (s.id, v) ∈ p'.2.transferability := by
              rw [hpt]; exact dictGet?_mem _ _ _ h1
            have := hAuth p' hp' _ hvmem
            simpa [getTransferability, ha, hb, h0, h1] using this
          | none =>
            by_cases hsub : s.subcategory = t.subcategory
            · simp only [getTransferability, ha, hb, h0, h1, hsub, if_true]
              constructor <;> decide
            · by_cases hcat : s.category = t.category
              · simp only [getTransferability, ha, hb, h0, h1, hsub, if_false, hcat, if_true]
                constructor <;> decide
              · simp only [getTransferability, ha, hb, h0, h1, hsub, hcat, if_false]
                constructor <;> simp

/-- C2 witness: the rule cascade and range evaluated on the example store
from `Gamma` (authored 0.70 towards `Alpha`) to `Alpha`. -/
theorem C2_witness :
    ((findSkill exStore "Gamma" = none ∨ findSkill exStore "Alpha" = none) →
        getTransferability exStore "Gamma" "Alpha" = 0) ∧
    (∀ s t, findSkill exStore "Gamma" = some s → findSkill exStore "Alpha" = some t →
      (∀ v, dictGet? s.transferability t.id = some v →
        getTransferability exStore "Gamma" "Alpha" = v) ∧
      (dictGet? s.transferability t.id = none →
        ∀ v, dictGet? t.transferability s.id = some v →
          getTransferability exStore "Gamma" "Alpha" = v) ∧
      (dictGet? s.transferability t.id = none →
        dictGet? t.transferability s.id = none →
          getTransferability exStore "Gamma" "Alpha" =
            (if s.subcategory = t.subcategory then mkRat 1 2
             else if s.category = t.category then mkRat 3 10 else 0))) ∧
    (0 ≤ getTransferability exStore "Gamma" "Alpha" ∧
      getTransferability exStore "Gamma" "Alpha" ≤ 1) :=
  C2_transferability_rules exStore "Gamma" "Alpha" (by decide)

/-- C5: every operation treats an unresolvable input name as a plain
no-result: `None` from `normalize`, `find_skill` and `assess_proficiency`,
empty lists from the navigators, `False` from `are_related` and 0.0 from
`get_transferability`. -/
theorem C5_unresolvable_defaults (st : Store) (q : String)
    (h : findSkill st q = none) :
    normalizeSkill st q = none ∧ findSkill st q = none ∧
    getParents st q = [] ∧ getChildren st q = [] ∧ getRelated st q = [] ∧
    (∀ b, areRelated st q b = false) ∧ (∀ a, areRelated st a q = false) ∧
    (∀ b, getTransferability st q b = 0) ∧ (∀ a, getTransferability st a q = 0) ∧
    (∀ ctx, assessProficiency st q ctx = none) := by
  refine ⟨normalizeSkill_eq_none_of_findSkill_none st q h, h, ?_, ?_, ?_, ?_, ?_, ?_, ?_, ?_⟩
  · simp [getParents, h]
  · simp [getChildren, h]
  · simp [getRelated, h]
  · intro b
    cases hb : findSkill st b <;> simp [areRelated, h, hb]
  · intro a
    cases ha : findSkill st a <;> simp [areRelated, h, ha]
  · intro b
    cases hb : findSkill st b <;> simp [getTransferability, h, hb]
  · intro a
    cases ha : findSkill st a <;> simp [getTransferability, h, ha]
  · intro ctx
    simp [assessProficiency, h]

/-- C5 witness: the defaults evaluated on the example store at the
unresolvable name `Rust`. -/
theorem C5_witness :
    normalizeSkill exStore "Rust" = none ∧ findSkill exStore "Rust" = none ∧
    getParents exStore "Rust" = [] ∧ getChildren exStore "Rust" = [] ∧
    getRelated exStore "Rust" = [] ∧
    (∀ b, areRelated exStore "Rust" b = false) ∧
    (∀ a, areRelated exStore a "Rust" = false) ∧
    (∀ b, getTransferability exStore "Rust" b = 0) ∧
    (∀ a, getTransferability exStore a "Rust" = 0) ∧
    (∀ ctx, assessProficiency exStore "Rust" ctx = none) :=
  C5_unresolvable_defaults exStore "Rust" (by decide)

/-- C10: `are_related` is symmetric in its two (free-text) arguments — the
explicit-edge disjunction consults both related lists and subcategory
equality is symmetric, and resolution failure yields false in both
orders. -/
theorem C10_areRelated_symmetric (st : Store) (a b : String) :
    areRelated st a b = areRelated st b a := by
  unfold areRelated
  cases ha : findSkill st a <;> cases hb : findSkill st b <;> try rfl
  rename_i s1 s2
  have hsub : decide (s1.subcategory = s2.subcategory) =
      decide (s2.subcategory = s1.subcategory) := by
    rw [decide_eq_decide]
    exact eq_comm
  show (decide (s2.id ∈ s1.related_skills) || decide (s1.id ∈ s2.related_skills) ||
      decide (s1.subcategory = s2.subcategory)) =
    (decide (s1.id ∈ s2.related_skills) || decide (s2.id ∈ s1.related_skills) ||
      decide (s2.subcategory = s1.subcategory))
  rw [Bool.or_comm (decide (s2.id ∈ s1.related_skills)) (decide (s1.id ∈ s2.related_skills)),
    hsub]

theorem gapClassify_foldl_spec (st : Store) (ck : List String)
    (missing : List String) (acc : List TransferEntry × List String) :
    (missing.foldl (gapStep st ck) acc).1 =
      acc.1 ++ (missing.filter
          (fun k => decide (mkRat 7 10 ≤ (bestTransfer st ck k).1))).map
        (fun k => { required := k, has := (bestTransfer st ck k).2,
                    transferability := (bestTransfer st ck k).1 }) ∧
    (missing.foldl (gapStep st ck) acc).2 =
      acc.2 ++ missing.filter
        (fun k => !decide (mkRat 7 10 ≤ (bestTransfer st ck k).1)) := by
  induction missing generalizing acc with
  | nil => simp
  | cons k tl ih =>
    rw [List.foldl_cons]
    rcases ih (gapStep st ck acc k) with ⟨h1, h2⟩
    by_cases hk : mkRat 7 10 ≤ (bestTransfer st ck k).1
    · constructor
      · rw [h1]
        simp [gapStep, hk, List.filter_cons, List.append_assoc]
      · rw [h2]
        simp [gapStep, hk, List.filter_cons]
    · constructor
      · rw [h1]
        simp [gapStep, hk, List.filter_cons]
      · rw [h2]
        simp [gapStep, hk, List.filter_cons, List.append_assoc]

theorem gapClassify_fst (st : Store) (ck missing : List String) :
    (gapClassify st ck missing).1 =
      (missing.filter
          (fun k => decide (mkRat 7 10 ≤ (bestTransfer st ck k).1))).map
        (fun k => { required := k, has := (bestTransfer st ck k).2,
                    transferability := (bestTransfer st ck k).1 }) := by
  have h := (gapClassify_foldl_spec st ck missing ([], [])).1
  simpa [gapClassify] using h

theorem gapClassify_snd (st : Store) (ck missing : List String) :
    (gapClassify st ck missing).2 =
      missing.filter (fun k => !decide (mkRat 7 10 ≤ (bestTransfer st ck k).1)) := by
  have h := (gapClassify_foldl_spec st ck missing ([], [])).2
  simpa [gapClassify] using h

theorem gapClassify_fst_all_ge (st : Store) (ck missing : List String) :
    ∀ e ∈ (gapClassify st ck missing).1, mkRat 7 10 ≤ e.transferability := by
  intro e he
  rw [gapClassify_fst] at he
  rcases List.mem_map.mp he with ⟨k, hk, rfl⟩
  show mkRat 7 10 ≤ (bestTransfer st ck k).1
  exact of_decide_eq_true (List.mem_filter.mp hk).2

theorem analyzeGaps_transferable_eq (st : Store) (required candidate : List String) :
    (analyzeGaps st required candidate).transferable =
      (gapClassify st (candKeysOf st candidate)
        (missingOf st required candidate)).1 := by
  show List.filter _ _ = _
  apply List.filter_eq_self.mpr
  intro e he
  exact decide_eq_true (gapClassify_fst_all_ge st _ _ e he)

theorem analyzeGaps_critical_eq (st : Store) (required candidate : List String) :
    (analyzeGaps st required candidate).critical_gaps =
      (missingOf st required candidate).filter
        (fun k => !decide (mkRat 7 10 ≤
          (bestTransfer st (candKeysOf st candidate) k).1)) := by
  show (gapClassify st (candKeysOf st candidate) (missingOf st required candidate)).2 = _
  exact gapClassify_snd st _ _

/-- C9: the `minor_gaps` list of `analyze_gaps` is always empty — it
re-filters the internal transferable list (every entry of which has score at
least 0.70) for scores in [0.50, 0.70), a condition no entry satisfies. -/
theorem C9_minor_gaps_empty (st : Store) (required candidate : List String) :
    (analyzeGaps st required candidate).minor_gaps = [] := by
  show (((gapClassify st (candKeysOf st candidate)
      (missingOf st required candidate)).1.filter _).map _) = []
  rw [List.map_eq_nil_iff]
  rw [List.filter_eq_nil_iff]
  intro e he
  have h7 := gapClassify_fst_all_ge st _ _ e he
  simp only [decide_eq_true_eq, not_and, not_lt]
  intro _
  exact h7

/-- C1 counterexample: on a store where `Alpha` and `Beta` share a
subcategory with no authored transferability, the missing skill `Alpha` has
best score exactly 0.50, yet `analyze_gaps` places it in `critical_gaps` and
leaves `minor_gaps` empty — contradicting the claim that a best score in
[0.50, 0.70) lands in `minor_gaps` and only scores below 0.50 land in
`critical_gaps`. -/
theorem C1_counterexample :
    (bestTransfer exStore (candKeysOf exStore ["Beta"]) "Alpha").1 = mkRat 1 2 ∧
    mkRat 1 2 < mkRat 7 10 ∧
    "Alpha" ∈ missingOf exStore ["Alpha"] ["Beta"] ∧
    (analyzeGaps exStore ["Alpha"] ["Beta"]).minor_gaps = [] ∧
    (analyzeGaps exStore ["Alpha"] ["Beta"]).critical_gaps = ["Alpha"] := by
  decide

/-- C1 (amended): each missing required skill is classified by its best
transferability score `s` over the candidate keys: if `s ≥ 0.70` it lands in
`transferable` (with the best match and score stored) and not in
`critical_gaps` — in particular a best score of exactly 0.70 is
transferable — and if `s < 0.70` it lands in `critical_gaps` and not in
`transferable`; `minor_gaps` receives nothing (see `C9`). -/
theorem C1_classification (st : Store) (required candidate : List String)
    (k : String) (hk : k ∈ missingOf st required candidate) :
    (mkRat 7 10 ≤ (bestTransfer st (candKeysOf st candidate) k).1 →
      ({ required := k, has := (bestTransfer st (candKeysOf st candidate) k).2,
         transferability := (bestTransfer st (candKeysOf st candidate) k).1 } :
          TransferEntry) ∈ (analyzeGaps st required candidate).transferable ∧
      k ∉ (analyzeGaps st required candidate).critical_gaps) ∧
    ((bestTransfer st (candKeysOf st candidate) k).1 < mkRat 7 10 →
      k ∈ (analyzeGaps st required candidate).critical_gaps ∧
      ∀ e ∈ (analyzeGaps st required candidate).transferable, e.required ≠ k) := by
  constructor
  · intro hge
    constructor
    · rw [analyzeGaps_transferable_eq, gapClassify_fst]
      exact List.mem_map.mpr ⟨k, List.mem_filter.mpr ⟨hk, decide_eq_true hge⟩, rfl⟩
    · rw [analyzeGaps_critical_eq]
      intro hmem
      have hmem2 := (List.mem_filter.mp hmem).2
      simp only [Bool.not_eq_true', decide_eq_false_iff_not] at hmem2
      exact hmem2 hge
  · intro hlt
    constructor
    · rw [analyzeGaps_critical_eq]
      refine List.mem_filter.mpr ⟨hk, ?_⟩
      simp only [Bool.not_eq_true', decide_eq_false_iff_not]
      exact not_le.mpr hlt
    · intro e he
      rw [analyzeGaps_transferable_eq, gapClassify_fst] at he
      rcases List.mem_map.mp he with ⟨k', hk', rfl⟩
      intro ekk
      simp only at ekk
      subst ekk
      exact absurd (of_decide_eq_true (List.mem_filter.mp hk').2) (not_le.mpr hlt)

/-- C1 witness: on the example store, the missing skill `Alpha` has best
score exactly 0.70 from candidate `Gamma` and is classified as transferable,
not critical. -/
theorem C1_witness :
    (mkRat 7 10 ≤ (bestTransfer exStore (candKeysOf exStore ["Gamma"]) "Alpha").1 →
      ({ required := "Alpha",
         has := (bestTransfer exStore (candKeysOf exStore ["Gamma"]) "Alpha").2,
         transferability :=
           (bestTransfer exStore (candKeysOf exStore ["Gamma"]) "Alpha").1 } :
          TransferEntry) ∈ (analyzeGaps exStore ["Alpha"] ["Gamma"]).transferable ∧
      "Alpha" ∉ (analyzeGaps exStore ["Alpha"] ["Gamma"]).critical_gaps) ∧
    ((bestTransfer exStore (candKeysOf exStore ["Gamma"]) "Alpha").1 < mkRat 7 10 →
      "Alpha" ∈ (analyzeGaps exStore ["Alpha"] ["Gamma"]).critical_gaps ∧
      ∀ e ∈ (analyzeGaps exStore ["Alpha"] ["Gamma"]).transferable,
        e.required ≠ "Alpha") :=
  C1_classification exStore ["Alpha"] ["Gamma"] "Alpha" (by decide)

theorem map_required_mk (l : List String) (f2 : String → Option String)
    (f3 : String → ℚ) :
    (l.map (fun k => ({ required := k, has := f2 k, transferability := f3 k} :
      TransferEntry))).map (fun e => e.required) = l := by
  induction l with
  | nil => rfl
  | cons a tl ih => simp [ih]

theorem analyzeGaps_transferable_required (st : Store)
    (required candidate : List String) :
    (analyzeGaps st required candidate).transferable.map (fun e => e.required) =
      (missingOf st required candidate).filter
        (fun k => decide (mkRat 7 10 ≤
          (bestTransfer st (candKeysOf st candidate) k).1)) := by
  rw [analyzeGaps_transferable_eq, gapClassify_fst, map_required_mk]

/-- C4: the normalized required keys are exactly the union of `matches`,
`critical_gaps` and the `required` keys of `transferable`; the three buckets
are pairwise disjoint and each is duplicate-free. -/
theorem C4_partition (st : Store) (required candidate : List String) :
    (∀ k, k ∈ reqKeysOf st required ↔
      (k ∈ (analyzeGaps st required candidate).matchesList ∨
       k ∈ (analyzeGaps st required candidate).critical_gaps ∨
       ∃ e ∈ (analyzeGaps st required candidate).transferable, e.required = k)) ∧
    (∀ k, k ∈ (analyzeGaps st required candidate).matchesList →
      k ∉ (analyzeGaps st required candidate).critical_gaps ∧
      ∀ e ∈ (analyzeGaps st required candidate).transferable, e.required ≠ k) ∧
    (∀ k, k ∈ (analyzeGaps st required candidate).critical_gaps →
      ∀ e ∈ (analyzeGaps st required candidate).transferable, e.required ≠ k) ∧
    (analyzeGaps st required candidate).matchesList.Nodup ∧
    (analyzeGaps st required candidate).critical_gaps.Nodup ∧
    ((analyzeGaps st required candidate).transferable.map
      (fun e => e.required)).Nodup := by
  have hmm : (analyzeGaps st required candidate).matchesList =
      (reqKeysOf st required).filter
        (fun k => decide (k ∈ candKeysOf st candidate)) := rfl
  have hcc := analyzeGaps_critical_eq st required candidate
  have htr := analyzeGaps_transferable_required st required candidate
  have hrknd : (reqKeysOf st required).Nodup := keyDict_keys_nodup st required
  have hmissnd : (missingOf st required candidate).Nodup := hrknd.filter _
  refine ⟨?_, ?_, ?_, ?_, ?_, ?_⟩
  · intro k
    constructor
    · intro hkr
      by_cases hc : k ∈ candKeysOf st candidate
      · left
        rw [hmm]
        exact List.mem_filter.mpr ⟨hkr, decide_eq_true hc⟩
      · have hmiss : k ∈ missingOf st required candidate :=
          List.mem_filter.mpr ⟨hkr, by simp [hc]⟩
        by_cases h7 : mkRat 7 10 ≤ (bestTransfer st (candKeysOf st candidate) k).1
        · right; right
          refine ⟨⟨k, (bestTransfer st (candKeysOf st candidate) k).2,
            (bestTransfer st (candKeysOf st candidate) k).1⟩, ?_, rfl⟩
          rw [analyzeGaps_transferable_eq, gapClassify_fst]
          exact List.mem_map.mpr ⟨k, List.mem_filter.mpr ⟨hmiss, decide_eq_true h7⟩, rfl⟩
        · right; left
          rw [hcc]
          exact List.mem_filter.mpr ⟨hmiss, by simp [h7]⟩
    · rintro (h | h | ⟨e, he, rfl⟩)
      · rw [hmm] at h
        exact (List.mem_filter.mp h).1
      · rw [hcc] at h
        exact (List.mem_filter.mp (List.mem_filter.mp h).1).1
      · have hmem : e.required ∈
            (analyzeGaps st required candidate).transferable.map (fun e => e.required) :=
          List.mem_map_of_mem _ he
        rw [htr] at hmem
        exact (List.mem_filter.mp (List.mem_filter.mp hmem).1).1
  · intro k hk
    rw [hmm] at hk
    have hkc : k ∈ candKeysOf st candidate :=
      of_decide_eq_true (List.mem_filter.mp hk).2
    constructor
    · intro hkcrit
      rw [hcc] at hkcrit
      have hmiss := (List.mem_filter.mp hkcrit).1
      have := (List.mem_filter.mp hmiss).2
      simp only [Bool.not_eq_eq_eq_not, Bool.not_true, decide_eq_false_iff_not] at this
      exact this hkc
    · intro e he ereq
      have hmem : e.required ∈
          (analyzeGaps st required candidate).transferable.map (fun e => e.required) :=
        List.mem_map_of_mem _ he
      rw [htr, ereq] at hmem
      have hmiss := (List.mem_filter.mp hmem).1
      have := (List.mem_filter.mp hmiss).2
      simp only [Bool.not_eq_eq_eq_not, Bool.not_true, decide_eq_false_iff_not] at this
      exact this hkc
  · intro k hk e he ereq
    rw [hcc] at hk
    have hnot := (List.mem_filter.mp hk).2
    simp only [Bool.not_eq_eq_eq_not, Bool.not_true, decide_eq_false_iff_not] at hnot
    have hmem : e.required ∈
        (analyzeGaps st required candidate).transferable.map (fun e => e.required) :=
      List.mem_map_of_mem _ he
    rw [htr, ereq] at hmem
    exact hnot (of_decide_eq_true (List.mem_filter.mp hmem).2)
  · rw [hmm]
    exact hrknd.filter _
  · rw [hcc]
    exact hmissnd.filter _
  · rw [htr]
    exact hmissnd.filter _

theorem argmax_decomp (xs : List (String × Nat)) (x : String × Nat) :
    ∃ l1 l2, x :: xs = l1 ++ (xs.foldl argmaxStep x) :: l2 ∧
      (∀ s ∈ x :: xs, s.2 ≤ (xs.foldl argmaxStep x).2) ∧
      (∀ s ∈ l1, s.2 < (xs.foldl argmaxStep x).2) := by
  induction xs generalizing x with
  | nil => exact ⟨[], [], rfl, by simp, by simp⟩
  | cons y ys ih =>
    rw [List.foldl_cons]
    rcases ih (argmaxStep x y) with ⟨l1, l2, hdec, hmax, hstrict⟩
    by_cases hxy : x.2 < y.2
    · have hstep : argmaxStep x y = y := by simp [argmaxStep, hxy]
      rw [hstep] at hdec hmax hstrict ⊢
      refine ⟨x :: l1, l2, ?_, ?_, ?_⟩
      · rw [List.cons_append, ← hdec]
      · intro s hs
        rcases List.mem_cons.mp hs with rfl | hs'
        · exact le_trans (le_of_lt hxy) (hmax y (List.mem_cons_self _ _))
        · rcases List.mem_cons.mp hs' with rfl | hs''
          · exact hmax s (List.mem_cons_self _ _)
          · exact hmax s (List.mem_cons_of_mem _ hs'')
      · intro s hs
        rcases List.mem_cons.mp hs with rfl | hs'
        · exact lt_of_lt_of_le hxy (hmax y (List.mem_cons_self _ _))
        · exact hstrict s hs'
    · have hstep : argmaxStep x y = x := by simp [argmaxStep, hxy]
      rw [hstep] at hdec hmax hstrict ⊢
      have hyx : y.2 ≤ x.2 := le_of_not_lt hxy
      cases l1 with
      | nil =>
        simp only [List.nil_append] at hdec
        injection hdec with hb1 hb2
        refine ⟨[], y :: ys, ?_, ?_, by simp⟩
        · rw [List.nil_append, ← hb1]
        · intro s hs
          rcases List.mem_cons.mp hs with rfl | hs'
          · exact hmax s (List.mem_cons_self _ _)
          · rcases List.mem_cons.mp hs' with rfl | hs''
            · exact le_trans hyx (hmax x (List.mem_cons_self _ _))
            · exact hmax s (List.mem_cons_of_mem _ hs'')
      | cons a l1' =>
        rw [List.cons_append] at hdec
        injection hdec with ha hys
        refine ⟨x :: y :: l1', l2, ?_, ?_, ?_⟩
        · rw [List.cons_append, List.cons_append, ← hys]
        · intro s hs
          rcases List.mem_cons.mp hs with rfl | hs'
          · exact hmax s (List.mem_cons_self _ _)
          · rcases List.mem_cons.mp hs' with rfl | hs''
            · exact le_trans hyx (hmax x (List.mem_cons_self _ _))
            · exact hmax s (List.mem_cons_of_mem _ hs'')
        · intro s hs
          have hax : a.2 < (ys.foldl argmaxStep x).2 :=
            hstrict a (List.mem_cons_self _ _)
          have hxa : x.2 = a.2 := by rw [ha]
          rcases List.mem_cons.mp hs with rfl | hs'
          · exact hxa ▸ hax
          · rcases List.mem_cons.mp hs' with rfl | hs''
            · exact lt_of_le_of_lt (hyx.trans hxa.le) hax
            · exact hstrict s (List.mem_cons_of_mem _ hs'')

/-- C7: for a resolvable skill with at least one proficiency level,
`assess_proficiency` returns `None` exactly when every level scores 0
against the context; otherwise it returns a level attaining the maximum
score such that every level stored before it scores strictly less (so ties
go to the first level in the skill's stored ordering). -/
theorem C7_assess_proficiency (st : Store) (name ctx : String) (sk : Skill)
    (hfind : findSkill st name = some sk)
    (hne : sk.proficiency_levels ≠ []) :
    (assessProficiency st name ctx = none ↔
      ∀ p ∈ sk.proficiency_levels, levelScore (strLower ctx) p.2 = 0) ∧
    (∀ lv, assessProficiency st name ctx = some lv →
      ∃ l1 b l2, sk.proficiency_levels.map (scoreOf ctx) = l1 ++ b :: l2 ∧
        b.1 = lv ∧ 0 < b.2 ∧
        (∀ q ∈ sk.proficiency_levels.map (scoreOf ctx), q.2 ≤ b.2) ∧
        (∀ q ∈ l1, q.2 < b.2)) := by
  cases hL : sk.proficiency_levels with
  | nil => exact absurd hL hne
  | cons a tl =>
    have hassess : assessProficiency st name ctx =
        (if 0 < ((tl.map (scoreOf ctx)).foldl argmaxStep (scoreOf ctx a)).2
         then some ((tl.map (scoreOf ctx)).foldl argmaxStep (scoreOf ctx a)).1
         else none) := by
      unfold assessProficiency
      rw [hfind]
      show (match firstArgmax (sk.proficiency_levels.map
            (fun p => (p.1, levelScore (strLower ctx) p.2))) with
          | none => none
          | some best => if 0 < best.2 then some best.1 else none) = _
      rw [hL, List.map_cons]
      rfl
    rcases argmax_decomp (tl.map (scoreOf ctx)) (scoreOf ctx a) with
      ⟨l1, l2, hdec, hmax, hstrict⟩
    constructor
    · constructor
      · intro h0
        rw [hassess] at h0
        by_cases hb : 0 < ((tl.map (scoreOf ctx)).foldl argmaxStep (scoreOf ctx a)).2
        · simp [hb] at h0
        · have hb0 : ((tl.map (scoreOf ctx)).foldl argmaxStep (scoreOf ctx a)).2 = 0 :=
            Nat.eq_zero_of_not_pos hb
          intro p hp
          have hpm : scoreOf ctx p ∈ scoreOf ctx a :: tl.map (scoreOf ctx) := by
            rcases List.mem_cons.mp hp with rfl | hp'
            · exact List.mem_cons_self _ _
            · exact List.mem_cons_of_mem _ (List.mem_map_of_mem _ hp')
          have hle := hmax _ hpm
          rw [hb0] at hle
          exact Nat.le_zero.mp hle
      · intro hall
        rw [hassess]
        have hbmem : (tl.map (scoreOf ctx)).foldl argmaxStep (scoreOf ctx a) ∈
            scoreOf ctx a :: tl.map (scoreOf ctx) := by
          rw [hdec]
          exact List.mem_append_right _ (List.mem_cons_self _ _)
        have hb0 : ((tl.map (scoreOf ctx)).foldl argmaxStep (scoreOf ctx a)).2 = 0 := by
          rcases List.mem_cons.mp hbmem with he | hbm
          · rw [he]
            exact hall a (List.mem_cons_self _ _)
          · rcases List.mem_map.mp hbm with ⟨p, hp, he⟩
            rw [← he]
            exact hall p (List.mem_cons_of_mem _ hp)
        simp [hb0]
    · intro lv hlv
      rw [hassess] at hlv
      by_cases hb : 0 < ((tl.map (scoreOf ctx)).foldl argmaxStep (scoreOf ctx a)).2
      · simp only [hb, if_true, Option.some.injEq] at hlv
        refine ⟨l1, _, l2, ?_, hlv, hb, ?_, hstrict⟩
        · rw [List.map_cons]
          exact hdec
        · intro q hq
          rw [List.map_cons] at hq
          exact hmax q hq
      · simp [hb] at hlv

/-- C7 witness: on the example store, `React` with context mentioning a
simple tutorial resolves to a level; the theorem's characterization holds
there concretely. -/
theorem C7_witness :
    (assessProficiency exStore "React" "Built simple todo app following tutorial" =
        none ↔
      ∀ p ∈ reactSkill.proficiency_levels,
        levelScore (strLower "Built simple todo app following tutorial") p.2 = 0) ∧
    (∀ lv, assessProficiency exStore "React"
        "Built simple todo app following tutorial" = some lv →
      ∃ l1 b l2, reactSkill.proficiency_levels.map
          (scoreOf "Built simple todo app following tutorial") = l1 ++ b :: l2 ∧
        b.1 = lv ∧ 0 < b.2 ∧
        (∀ q ∈ reactSkill.proficiency_levels.map
          (scoreOf "Built simple todo app following tutorial"), q.2 ≤ b.2) ∧
        (∀ q ∈ l1, q.2 < b.2)) :=
  C7_assess_proficiency exStore "React" "Built simple todo app following tutorial"
    reactSkill (by decide) (by decide)

theorem mem_insertDescBy (key : Recommendation → ℚ) (r : Recommendation)
    (l : List Recommendation) (y : Recommendation) :
    y ∈ insertDescBy key r l ↔ y = r ∨ y ∈ l := by
  induction l with
  | nil => simp [insertDescBy]
  | cons x xs ih =>
    unfold insertDescBy
    by_cases h : key x ≤ key r
    · simp [h]
    · rw [if_neg h]
      simp only [List.mem_cons, ih]
      tauto

theorem mem_sortDescBy (key : Recommendation → ℚ) (l : List Recommendation)
    (y : Recommendation) : y ∈ sortDescBy key l ↔ y ∈ l := by
  induction l with
  | nil => simp [sortDescBy]
  | cons x xs ih =>
    show y ∈ insertDescBy key x (sortDescBy key xs) ↔ _
    rw [mem_insertDescBy]
    simp [ih]

theorem pairwise_insertDescBy (key : Recommendation → ℚ) (r : Recommendation)
    (l : List Recommendation) (h : l.Pairwise (fun a b => key b ≤ key a)) :
    (insertDescBy key r l).Pairwise (fun a b => key b ≤ key a) := by
  induction l with
  | nil => simp [insertDescBy]
  | cons x xs ih =>
    unfold insertDescBy
    by_cases hc : key x ≤ key r
    · rw [if_pos hc]
      refine List.pairwise_cons.mpr ⟨?_, h⟩
      intro b hb
      rcases List.mem_cons.mp hb with rfl | hb'
      · exact hc
      · exact le_trans ((List.pairwise_cons.mp h).1 b hb') hc
    · rw [if_neg hc]
      refine List.pairwise_cons.mpr ⟨?_, ih (List.pairwise_cons.mp h).2⟩
      intro b hb
      rcases (mem_insertDescBy _ _ _ _).mp hb with rfl | hb'
      · exact le_of_not_le hc
      · exact (List.pairwise_cons.mp h).1 b hb'

theorem sortDescBy_pairwise (key : Recommendation → ℚ) (l : List Recommendation) :
    (sortDescBy key l).Pairwise (fun a b => key b ≤ key a) := by
  induction l with
  | nil => simp [sortDescBy]
  | cons x xs ih => exact pairwise_insertDescBy key x _ ih

theorem filter_insertDescBy_eq (key : Recommendation → ℚ) (r : Recommendation)
    (l : List Recommendation) (q : ℚ) (hr : key r = q) :
    (insertDescBy key r l).filter (fun a => decide (key a = q)) =
      r :: l.filter (fun a => decide (key a = q)) := by
  induction l with
  | nil => simp [insertDescBy, hr]
  | cons x xs ih =>
    unfold insertDescBy
    by_cases hc : key x ≤ key r
    · rw [if_pos hc]
      simp [List.filter_cons, hr]
    · rw [if_neg hc]
      have hx : ¬ (key x = q) := by
        rw [← hr]
        intro e
        exact hc (le_of_eq e)
      simp [List.filter_cons, hx, ih]

theorem filter_insertDescBy_ne (key : Recommendation → ℚ) (r : Recommendation)
    (l : List Recommendation) (q : ℚ) (hr : ¬ (key r = q)) :
    (insertDescBy key r l).filter (fun a => decide (key a = q)) =
      l.filter (fun a => decide (key a = q)) := by
  induction l with
  | nil => simp [insertDescBy, hr]
  | cons x xs ih =>
    unfold insertDescBy
    by_cases hc : key x ≤ key r
    · rw [if_pos hc]
      simp [List.filter_cons, hr]
    · rw [if_neg hc]
      simp [List.filter_cons, ih]

theorem sortDescBy_stable (key : Recommendation → ℚ) (l : List Recommendation)
    (q : ℚ) :
    (sortDescBy key l).filter (fun a => decide (key a = q)) =
      l.filter (fun a => decide (key a = q)) := by
  induction l with
  | nil => rfl
  | cons x xs ih =>
    show ((insertDescBy key x (sortDescBy key xs)).filter _) = _
    by_cases hx : key x = q
    · rw [filter_insertDescBy_eq key x _ q hx, ih, List.filter_cons]
      simp [hx]
    · rw [filter_insertDescBy_ne key x _ q hx, ih, List.filter_cons]
      simp [hx]

/-- C8: the learning path is sorted in descending order of `priority_score`,
and recommendations with equal scores keep the relative order in which their
skills were collected from the store for the target role (stable sort). -/
theorem C8_learning_path_sorted (st : Store) (current : List String)
    (targetRole : String) :
    (generateLearningPath st current targetRole).Pairwise
      (fun a b => b.priority_score ≤ a.priority_score) ∧
    ∀ q : ℚ, (generateLearningPath st current targetRole).filter
        (fun r => decide (r.priority_score = q)) =
      (collectRecs st current targetRole).filter
        (fun r => decide (r.priority_score = q)) := by
  constructor
  · exact sortDescBy_pairwise _ _
  · intro q
    exact sortDescBy_stable _ _ q

/-- C6: every recommendation of `generate_learning_path` has
`prerequisites_met` true exactly when every prerequisite id normalizes to a
canonical name that lies in the normalized current-skill set; in particular
it is false whenever any prerequisite fails to normalize, since the
normalized set contains only strings, never the not-found value. -/
theorem C6_prereqs_met (st : Store) (current : List String) (targetRole : String)
    (rec : Recommendation)
    (hrec : rec ∈ generateLearningPath st current targetRole) :
    ∃ sk, rec = mkRecommendation st current
        (current.map (fun s => normOr st s)) sk ∧
      (rec.prerequisites_met = true ↔
        ∀ p ∈ sk.prerequisites, ∃ c, normalizeSkill st p = some c ∧
          c ∈ current.map (fun s => normOr st s)) ∧
      (∀ p ∈ sk.prerequisites, normalizeSkill st p = none →
        rec.prerequisites_met = false) := by
  have hmem : rec ∈ collectRecs st current targetRole :=
    (mem_sortDescBy _ _ _).mp hrec
  unfold collectRecs at hmem
  rcases List.mem_map.mp hmem with ⟨sk, hsk, rfl⟩
  refine ⟨sk, rfl, ?_, ?_⟩
  · show prereqsMet st sk (current.map (fun s => normOr st s)) = true ↔ _
    unfold prereqsMet
    rw [List.all_eq_true]
    constructor
    · intro h p hp
      have hpp := h p hp
      cases hn : normalizeSkill st p with
      | none =>
        rw [hn] at hpp
        simp at hpp
      | some c =>
        rw [hn] at hpp
        exact ⟨c, rfl, of_decide_eq_true hpp⟩
    · intro h p hp
      rcases h p hp with ⟨c, hc, hcm⟩
      rw [hc]
      exact decide_eq_true hcm
  · intro p hp hnone
    show prereqsMet st sk (current.map (fun s => normOr st s)) = false
    unfold prereqsMet
    refine Bool.eq_false_iff.mpr ?_
    intro hall
    have hpp := List.all_eq_true.mp hall p hp
    rw [hnone] at hpp
    simp at hpp

/-- C6 witness: on the example store with no current skills, the single
recommendation for role `Backend Developer` (the `Django` skill) satisfies
the characterization concretely. -/
theorem C6_witness :
    ∃ sk, mkRecommendation exStore [] [] djangoSkill =
        mkRecommendation exStore []
          (([] : List String).map (fun s => normOr exStore s)) sk ∧
      ((mkRecommendation exStore [] [] djangoSkill).prerequisites_met = true ↔
        ∀ p ∈ sk.prerequisites, ∃ c, normalizeSkill exStore p = some c ∧
          c ∈ ([] : List String).map (fun s => normOr exStore s)) ∧
      (∀ p ∈ sk.prerequisites, normalizeSkill exStore p = none →
        (mkRecommendation exStore [] [] djangoSkill).prerequisites_met = false) :=
  C6_prereqs_met exStore [] "Backend Developer"
    (mkRecommendation exStore [] [] djangoSkill) (by decide)
